import Mathlib

/-!
Shallow embedding of `src/python/main.py` (Azure Workload Orchestration SDK
example): the capability reconciler `merge_capabilities_with_uniqueness`,
the retry helper `retry_operation`, and the version counter
`get_next_version`, together with proofs of the specification claims.
-/

namespace SdkExample

instance {ε α : Type} [DecidableEq ε] [DecidableEq α] : DecidableEq (Except ε α) := fun x y =>
  match x, y with
  | .ok a, .ok b =>
    if h : a = b then isTrue (congrArg Except.ok h)
    else isFalse (fun hh => h (Except.ok.inj hh))
  | .error a, .error b =>
    if h : a = b then isTrue (congrArg Except.error h)
    else isFalse (fun hh => h (Except.error.inj hh))
  | .ok _, .error _ => isFalse (fun hh => Except.noConfusion hh)
  | .error _, .ok _ => isFalse (fun hh => Except.noConfusion hh)

/-- A capability record as it arrives at the reconciler: a dict or SDK object
from which the code reads `name` and `description` (defaulting to `""` when
absent) and which possibly carries a deprecated `state` field. -/
structure CapRec where
  name : String
  description : String
  state : Option String
deriving DecidableEq

/-- A merged capability entry: the dict `{"name": ..., "description": ...}`
built by the reconciler (the `state` field is dropped). -/
structure Cap where
  name : String
  description : String
deriving DecidableEq

/-- The projection performed at each append site: keep `name` and
`description`, drop everything else. -/
def projCap (c : CapRec) : Cap := ⟨c.name, c.description⟩

/-- Common shape of the two merge loops: walk the list in order; when the
record satisfies the branch condition `p` and its name is not in the seen
set, add the name to the seen set and append the `{name, description}`
projection; otherwise skip. Returns the final seen set and the appended
entries, in order. -/
def capLoop (p : CapRec → Prop) [DecidablePred p] :
    List CapRec → List String → List String × List Cap
  | [], seen => (seen, [])
  | c :: rest, seen =>
    if p c ∧ c.name ∉ seen then
      ((capLoop p rest (c.name :: seen)).1,
        projCap c :: (capLoop p rest (c.name :: seen)).2)
    else
      capLoop p rest seen

/-- The existing-capabilities loop (`main.py` lines 623-641): the branch
condition is `if cap_name and cap_name not in existing_names`, i.e. the name
must be non-empty and unseen. -/
def processExisting (existing_capabilities : List CapRec) (seen : List String) :
    List String × List Cap :=
  capLoop (fun c => c.name ≠ "") existing_capabilities seen

/-- The new-capabilities loop (`main.py` lines 645-658): the branch condition
is `if cap_name not in existing_names` only — there is no non-empty check
here, unlike the existing-capabilities loop. -/
def processNew (new_capabilities : List CapRec) (seen : List String) :
    List String × List Cap :=
  capLoop (fun _ => True) new_capabilities seen

/-- The merged list built by `merge_capabilities_with_uniqueness` before its
validation phase: existing-derived entries first, then incoming-derived
entries, sharing one seen set that starts empty. -/
def mergedCaps (existing_capabilities new_capabilities : List CapRec) : List Cap :=
  (processExisting existing_capabilities []).2 ++
    (processNew new_capabilities (processExisting existing_capabilities []).1).2

/-- The two `ValueError` families the validation phase of
`merge_capabilities_with_uniqueness` can raise. -/
inductive MergeError where
  | countExceeded (got expected : Nat)
  | missingName (idx : Nat)
deriving DecidableEq

/-- The per-entry validation loop (`main.py` lines 675-683): raise at the
first entry whose name is empty (`if not cap.get('name')`); the
`isinstance(cap, dict)` check cannot fail for entries built by the merge
loops, and the `state` check only prints a warning. -/
def validateCaps : List Cap → Nat → Option MergeError
  | [], _ => none
  | c :: rest, idx =>
    if c.name = "" then some (.missingName idx) else validateCaps rest (idx + 1)

/-- Embedding of `merge_capabilities_with_uniqueness(existing_capabilities,
new_capabilities)` (`main.py` lines 581-688): build the merged list, raise
`ValueError` if the merged count exceeds `len(existing) + len(new)`, raise
`ValueError` at the first empty-named entry, otherwise return the merged
list. -/
def merge_capabilities_with_uniqueness
    (existing_capabilities new_capabilities : List CapRec) :
    Except MergeError (List Cap) :=
  if (mergedCaps existing_capabilities new_capabilities).length >
      existing_capabilities.length + new_capabilities.length then
    .error (.countExceeded (mergedCaps existing_capabilities new_capabilities).length
      (existing_capabilities.length + new_capabilities.length))
  else
    match validateCaps (mergedCaps existing_capabilities new_capabilities) 0 with
    | some err => .error err
    | none => .ok (mergedCaps existing_capabilities new_capabilities)

/-- The new-capabilities walk as the spec words it ("for each record whose
name is non-empty and not yet seen, append"): unlike the code, it requires a
non-empty name. Used only to compare the spec's description against the
code. -/
def specProcessNew (new_capabilities : List CapRec) (seen : List String) :
    List String × List Cap :=
  capLoop (fun c => c.name ≠ "") new_capabilities seen

/-- The merged list as the spec describes it, using `specProcessNew` for the
incoming walk. -/
def specMergedCaps (existing_capabilities new_capabilities : List CapRec) :
    List Cap :=
  (processExisting existing_capabilities []).2 ++
    (specProcessNew new_capabilities (processExisting existing_capabilities []).1).2

/-- The whole reconciler as the spec describes it: spec-described merge, then
the same two validations. -/
def specMerge (existing_capabilities new_capabilities : List CapRec) :
    Except MergeError (List Cap) :=
  if (specMergedCaps existing_capabilities new_capabilities).length >
      existing_capabilities.length + new_capabilities.length then
    .error (.countExceeded (specMergedCaps existing_capabilities new_capabilities).length
      (existing_capabilities.length + new_capabilities.length))
  else
    match validateCaps (specMergedCaps existing_capabilities new_capabilities) 0 with
    | some err => .error err
    | none => .ok (specMergedCaps existing_capabilities new_capabilities)

/-- Discriminator for the merge-count `ValueError` (`main.py` lines 666-671):
true exactly when the reconciler raised because the merged count exceeded
`len(existing) + len(new)`. -/
def isCountError : Except MergeError (List Cap) → Bool
  | .error (.countExceeded _ _) => true
  | _ => false

/-- Outcome of a `retry_operation` call: a returned value, a propagated
exception, or Python's implicit `None` return when the loop body never ran. -/
inductive RetryResult (ε α : Type) where
  | success : α → RetryResult ε α
  | failure : ε → RetryResult ε α
  | returnsNone : RetryResult ε α
deriving DecidableEq

/-- The body of the `for attempt in range(max_attempts)` loop of
`retry_operation` (`main.py` lines 15-24), with `n` the remaining iteration
count and `attempt` the current 0-based index. `op k` is the outcome of the
`(k+1)`-th invocation of the operation. Returns the loop outcome, the list
of `time.sleep` durations in order, and the number of invocations of the
operation. On a failed attempt that is not the last (`attempt ==
max_attempts - 1` is exactly `n = 1`, i.e. the recursion argument is `0`),
the code sleeps `delay_seconds` and doubles it before retrying; on the last
attempt it re-raises the exception unchanged. -/
def retryGo (op : Nat → Except ε α) :
    Nat → Nat → Int → RetryResult ε α × List Int × Nat
  | 0, _, _ => (.returnsNone, [], 0)
  | n + 1, attempt, delay =>
    match op attempt with
    | .ok a => (.success a, [], 1)
    | .error e =>
      if n = 0 then
        (.failure e, [], 1)
      else
        ((retryGo op n (attempt + 1) (delay * 2)).1,
          delay :: (retryGo op n (attempt + 1) (delay * 2)).2.1,
          (retryGo op n (attempt + 1) (delay * 2)).2.2 + 1)

/-- Embedding of `retry_operation(operation, max_attempts, delay_seconds)`
(`main.py` lines 11-24). `max_attempts` is an `Int` because Python allows
non-positive values, for which `range(max_attempts)` is empty and the
function falls through to an implicit `return None`. -/
def retry_operation (op : Nat → Except ε α) (max_attempts : Int)
    (delay_seconds : Int) : RetryResult ε α × List Int × Nat :=
  retryGo op max_attempts.toNat 0 delay_seconds

/-- The list of sleep durations produced by `k` consecutive failed attempts
starting from delay `d`: first `d`, then `2d`, and so on, doubling each
time. -/
def doublingList (d : Int) : Nat → List Int
  | 0 => []
  | k + 1 => d :: doublingList (d * 2) k

/-- Model of Python's `str.strip()`: remove whitespace from both ends. File
text is modelled as a list of characters. -/
def stripChars (cs : List Char) : List Char :=
  ((cs.dropWhile Char.isWhitespace).reverse.dropWhile Char.isWhitespace).reverse

/-- Model of Python's `int(...)` digit parsing on a sign-free string: at
least one decimal digit and nothing else; anything different raises
`ValueError`, modelled as `none`. -/
def parseNatDigits (cs : List Char) : Option Nat :=
  if cs = [] then none
  else if cs.all Char.isDigit then
    some (cs.foldl (fun acc c => acc * 10 + (c.toNat - Char.toNat '0')) 0)
  else none

/-- Model of Python's `int(...)` over stripped text, with sign handling. -/
def parseDecimal (cs : List Char) : Option Int :=
  match cs with
  | c :: rest =>
    if c = '-' then (parseNatDigits rest).map (fun m => -(m : Int))
    else if c = '+' then (parseNatDigits rest).map (fun m => (m : Int))
    else (parseNatDigits cs).map (fun m => (m : Int))
  | [] => none

/-- Embedding of `get_next_version()` (`main.py` lines 73-83) over an
explicit file state: `none` models a missing `version.txt` (the
`FileNotFoundError` branch sets `version = 0`), `some cs` models a file with
text `cs`. The code parses `int(f.read().strip())` — a parse failure
propagates as an uncaught `ValueError` before any write — then writes
`str(version + 1)` and returns the pre-increment `version`. -/
def get_next_version (file : Option (List Char)) :
    Except String (Int × Option (List Char)) :=
  match file with
  | none => .ok (0, some (toString ((0 : Int) + 1)).data)
  | some cs =>
    match parseDecimal (stripChars cs) with
    | none => .error "invalid literal for int"
    | some n => .ok (n, some (toString (n + 1)).data)

@[simp] theorem projCap_name (c : CapRec) : (projCap c).name = c.name := rfl

@[simp] theorem projCap_description (c : CapRec) :
    (projCap c).description = c.description := rfl

-- The seen set only grows along a merge loop.
theorem capLoop_seen_mono (p : CapRec → Prop) [DecidablePred p]
    (l : List CapRec) :
    ∀ seen, ∀ x ∈ seen, x ∈ (capLoop p l seen).1 := by
  induction l with
  | nil => intro seen x hx; simpa [capLoop] using hx
  | cons c rest ih =>
    intro seen x hx
    by_cases h : p c ∧ c.name ∉ seen
    · simp only [capLoop, if_pos h]
      exact ih _ x (List.mem_cons_of_mem _ hx)
    · simp only [capLoop, if_neg h]
      exact ih _ x hx

-- Every appended entry has its name in the final seen set.
theorem capLoop_mem_seen (p : CapRec → Prop) [DecidablePred p]
    (l : List CapRec) :
    ∀ seen, ∀ x ∈ (capLoop p l seen).2, x.name ∈ (capLoop p l seen).1 := by
  induction l with
  | nil => intro seen x hx; simp [capLoop] at hx
  | cons c rest ih =>
    intro seen x hx
    by_cases h : p c ∧ c.name ∉ seen
    · simp only [capLoop, if_pos h] at hx ⊢
      rcases List.mem_cons.mp hx with h1 | h1
      · subst h1
        exact capLoop_seen_mono p rest _ c.name (List.mem_cons_self _ _)
      · exact ih _ x h1
    · simp only [capLoop, if_neg h] at hx ⊢
      exact ih _ x hx

-- No appended entry has a name that was already in the seen set.
theorem capLoop_mem_not_seen (p : CapRec → Prop) [DecidablePred p]
    (l : List CapRec) :
    ∀ seen, ∀ x ∈ (capLoop p l seen).2, x.name ∉ seen := by
  induction l with
  | nil => intro seen x hx; simp [capLoop] at hx
  | cons c rest ih =>
    intro seen x hx
    by_cases h : p c ∧ c.name ∉ seen
    · simp only [capLoop, if_pos h] at hx
      rcases List.mem_cons.mp hx with h1 | h1
      · subst h1; exact h.2
      · intro hmem
        exact ih _ x h1 (List.mem_cons_of_mem _ hmem)
    · simp only [capLoop, if_neg h] at hx
      exact ih _ x hx

-- The appended entries have pairwise distinct names.
theorem capLoop_nodup (p : CapRec → Prop) [DecidablePred p]
    (l : List CapRec) :
    ∀ seen, (((capLoop p l seen).2).map Cap.name).Nodup := by
  induction l with
  | nil => intro seen; simp [capLoop]
  | cons c rest ih =>
    intro seen
    by_cases h : p c ∧ c.name ∉ seen
    · simp only [capLoop, if_pos h, List.map_cons]
      refine List.nodup_cons.mpr ⟨?_, ih _⟩
      intro hmem
      rcases List.mem_map.mp hmem with ⟨x, hx, hxname⟩
      refine capLoop_mem_not_seen p rest _ x hx ?_
      rw [hxname]
      exact List.mem_cons_self _ _
    · simp only [capLoop, if_neg h]
      exact ih _

-- Every appended entry is the projection of an input record satisfying the
-- branch condition.
theorem capLoop_mem_src (p : CapRec → Prop) [DecidablePred p]
    (l : List CapRec) :
    ∀ seen, ∀ x ∈ (capLoop p l seen).2, ∃ c ∈ l, p c ∧ x = projCap c := by
  induction l with
  | nil => intro seen x hx; simp [capLoop] at hx
  | cons c rest ih =>
    intro seen x hx
    by_cases h : p c ∧ c.name ∉ seen
    · simp only [capLoop, if_pos h] at hx
      rcases List.mem_cons.mp hx with h1 | h1
      · exact ⟨c, List.mem_cons_self _ _, h.1, h1⟩
      · rcases ih _ x h1 with ⟨c0, hc0, hp0, hx0⟩
        exact ⟨c0, List.mem_cons_of_mem _ hc0, hp0, hx0⟩
    · simp only [capLoop, if_neg h] at hx
      rcases ih _ x hx with ⟨c0, hc0, hp0, hx0⟩
      exact ⟨c0, List.mem_cons_of_mem _ hc0, hp0, hx0⟩

-- At most one entry is appended per input record.
theorem capLoop_length_le (p : CapRec → Prop) [DecidablePred p]
    (l : List CapRec) :
    ∀ seen, (capLoop p l seen).2.length ≤ l.length := by
  induction l with
  | nil => intro seen; simp [capLoop]
  | cons c rest ih =>
    intro seen
    by_cases h : p c ∧ c.name ∉ seen
    · simp only [capLoop, if_pos h, List.length_cons]
      exact Nat.succ_le_succ (ih _)
    · simp only [capLoop, if_neg h, List.length_cons]
      exact Nat.le_succ_of_le (ih _)

-- Every name in the final seen set was either there initially or belongs to
-- an input record satisfying the branch condition.
theorem capLoop_seen_src (p : CapRec → Prop) [DecidablePred p]
    (l : List CapRec) :
    ∀ seen, ∀ x ∈ (capLoop p l seen).1,
      x ∈ seen ∨ ∃ c ∈ l, p c ∧ c.name = x := by
  induction l with
  | nil => intro seen x hx; exact Or.inl (by simpa [capLoop] using hx)
  | cons c rest ih =>
    intro seen x hx
    by_cases h : p c ∧ c.name ∉ seen
    · simp only [capLoop, if_pos h] at hx
      rcases ih _ x hx with h1 | ⟨c0, hc0, hp0, hn0⟩
      · rcases List.mem_cons.mp h1 with h2 | h2
        · exact Or.inr ⟨c, List.mem_cons_self _ _, h.1, h2.symm⟩
        · exact Or.inl h2
      · exact Or.inr ⟨c0, List.mem_cons_of_mem _ hc0, hp0, hn0⟩
    · simp only [capLoop, if_neg h] at hx
      rcases ih _ x hx with h1 | ⟨c0, hc0, hp0, hn0⟩
      · exact Or.inl h1
      · exact Or.inr ⟨c0, List.mem_cons_of_mem _ hc0, hp0, hn0⟩

-- When every record passes the branch condition, has an unseen name, and the
-- names are pairwise distinct, the loop appends exactly the projections of
-- the whole input, in order.
theorem capLoop_all_pass (p : CapRec → Prop) [DecidablePred p]
    (l : List CapRec) :
    ∀ seen, (∀ c ∈ l, p c) → (∀ c ∈ l, c.name ∉ seen) →
      ((l.map CapRec.name).Nodup) →
      (capLoop p l seen).2 = l.map projCap := by
  induction l with
  | nil => intro seen _ _ _; simp [capLoop]
  | cons c rest ih =>
    intro seen hp hseen hnd
    have h : p c ∧ c.name ∉ seen :=
      ⟨hp c (List.mem_cons_self _ _), hseen c (List.mem_cons_self _ _)⟩
    simp only [capLoop, if_pos h, List.map_cons]
    congr 1
    have hnd2 : (c.name :: rest.map CapRec.name).Nodup := by
      simpa using hnd
    refine ih _ (fun c0 hc0 => hp c0 (List.mem_cons_of_mem _ hc0)) ?_
      (List.nodup_cons.mp hnd2).2
    intro c0 hc0 hmem
    rcases List.mem_cons.mp hmem with h2 | h2
    · exact (List.nodup_cons.mp hnd2).1
        (List.mem_map.mpr ⟨c0, hc0, h2⟩)
    · exact hseen c0 (List.mem_cons_of_mem _ hc0) h2

-- When the branch condition is universally true (the incoming walk), an
-- input record with an empty name forces an empty-named appended entry,
-- provided the empty name is not already seen.
theorem capLoop_empty_mem (p : CapRec → Prop) [DecidablePred p]
    (hp : ∀ c, p c) (l : List CapRec) :
    ∀ seen, "" ∉ seen → (∃ c ∈ l, c.name = "") →
      ∃ x ∈ (capLoop p l seen).2, x.name = "" := by
  induction l with
  | nil =>
    intro seen _ h
    rcases h with ⟨c, hc, _⟩
    simp at hc
  | cons c rest ih =>
    intro seen hseen h
    by_cases hc : c.name = ""
    · have hcond : p c ∧ c.name ∉ seen := ⟨hp c, by rw [hc]; exact hseen⟩
      simp only [capLoop, if_pos hcond]
      exact ⟨projCap c, List.mem_cons_self _ _, by simpa using hc⟩
    · have h2 : ∃ c0 ∈ rest, c0.name = "" := by
        rcases h with ⟨c0, hc0, hn0⟩
        rcases List.mem_cons.mp hc0 with h3 | h3
        · exact absurd (h3 ▸ hn0) hc
        · exact ⟨c0, h3, hn0⟩
      by_cases hcond : p c ∧ c.name ∉ seen
      · simp only [capLoop, if_pos hcond]
        have hseen2 : "" ∉ c.name :: seen := by
          intro hmem
          rcases List.mem_cons.mp hmem with h4 | h4
          · exact hc h4.symm
          · exact hseen h4
        rcases ih _ hseen2 h2 with ⟨x, hx, hxn⟩
        exact ⟨x, List.mem_cons_of_mem _ hx, hxn⟩
      · simp only [capLoop, if_neg hcond]
        exact ih _ hseen h2

-- The loops never read the state field: mapping it arbitrarily leaves the
-- result unchanged.
theorem capLoop_state_map (p : CapRec → Prop) [DecidablePred p]
    (f : CapRec → Option String)
    (hp : ∀ c, p {c with state := f c} ↔ p c) (l : List CapRec) :
    ∀ seen, capLoop p (l.map fun c => {c with state := f c}) seen =
      capLoop p l seen := by
  induction l with
  | nil => intro seen; rfl
  | cons c rest ih =>
    intro seen
    have hcond : (p {c with state := f c} ∧ ({c with state := f c} : CapRec).name ∉ seen)
        ↔ (p c ∧ c.name ∉ seen) := and_congr (hp c) Iff.rfl
    simp only [List.map_cons, capLoop]
    by_cases h : p c ∧ c.name ∉ seen
    · rw [if_pos (hcond.mpr h), if_pos h, ih]
      rfl
    · rw [if_neg (fun hh => h (hcond.mp hh)), if_neg h, ih]

-- The per-entry validation succeeds exactly when every entry has a
-- non-empty name.
theorem validateCaps_eq_none (l : List Cap) :
    ∀ n, validateCaps l n = none ↔ ∀ c ∈ l, c.name ≠ "" := by
  induction l with
  | nil => intro n; simp [validateCaps]
  | cons c rest ih =>
    intro n
    by_cases h : c.name = ""
    · simp [validateCaps, h, List.forall_mem_cons]
    · simp [validateCaps, h, List.forall_mem_cons, ih (n + 1)]

-- An empty-named entry makes the per-entry validation fail.
theorem validateCaps_missing (l : List Cap) :
    ∀ n, (∃ c ∈ l, c.name = "") →
      ∃ k, validateCaps l n = some (.missingName k) := by
  induction l with
  | nil =>
    intro n h
    rcases h with ⟨c, hc, _⟩
    simp at hc
  | cons c rest ih =>
    intro n h
    by_cases hc : c.name = ""
    · exact ⟨n, by simp [validateCaps, hc]⟩
    · have h2 : ∃ c0 ∈ rest, c0.name = "" := by
        rcases h with ⟨c0, hc0, hn0⟩
        rcases List.mem_cons.mp hc0 with h3 | h3
        · exact absurd (h3 ▸ hn0) hc
        · exact ⟨c0, h3, hn0⟩
      rcases ih (n + 1) h2 with ⟨k, hk⟩
      exact ⟨k, by simp [validateCaps, hc, hk]⟩

-- The per-entry validation only ever produces the missing-name error.
theorem validateCaps_shape (l : List Cap) :
    ∀ n err, validateCaps l n = some err → ∃ k, err = .missingName k := by
  induction l with
  | nil => intro n err h; simp [validateCaps] at h
  | cons c rest ih =>
    intro n err h
    by_cases hc : c.name = ""
    · simp [validateCaps, hc] at h
      exact ⟨n, h.symm⟩
    · simp [validateCaps, hc] at h
      exact ih (n + 1) err h

-- The merged list never exceeds the combined input length.
theorem mergedCaps_length_le (e i : List CapRec) :
    (mergedCaps e i).length ≤ e.length + i.length := by
  unfold mergedCaps processExisting processNew
  rw [List.length_append]
  exact Nat.add_le_add (capLoop_length_le _ e []) (capLoop_length_le _ i _)

-- Consequently the count-validation branch never fires, and the reconciler
-- reduces to the per-entry validation.
theorem merge_eq_validate (e i : List CapRec) :
    merge_capabilities_with_uniqueness e i =
      match validateCaps (mergedCaps e i) 0 with
      | some err => Except.error err
      | none => Except.ok (mergedCaps e i) := by
  unfold merge_capabilities_with_uniqueness
  rw [if_neg (Nat.not_lt.mpr (mergedCaps_length_le e i))]

-- If every merged entry has a non-empty name the reconciler returns the
-- merged list.
theorem merge_ok_of_nonempty (e i : List CapRec)
    (h : ∀ c ∈ mergedCaps e i, c.name ≠ "") :
    merge_capabilities_with_uniqueness e i = .ok (mergedCaps e i) := by
  rw [merge_eq_validate, (validateCaps_eq_none _ 0).mpr h]

-- A normal return yields exactly the merged list, with all names non-empty.
theorem merge_ok_names (e i : List CapRec) (l : List Cap)
    (h : merge_capabilities_with_uniqueness e i = .ok l) :
    l = mergedCaps e i ∧ ∀ c ∈ l, c.name ≠ "" := by
  rw [merge_eq_validate] at h
  cases hv : validateCaps (mergedCaps e i) 0 with
  | some err =>
    rw [hv] at h
    exact absurd h (by simp)
  | none =>
    rw [hv] at h
    have h2 := Except.ok.inj h
    subst h2
    exact ⟨rfl, (validateCaps_eq_none _ 0).mp hv⟩

-- An empty-named merged entry makes the reconciler raise the missing-name
-- error.
theorem merge_error_missing (e i : List CapRec)
    (h : ∃ c ∈ mergedCaps e i, c.name = "") :
    ∃ k, merge_capabilities_with_uniqueness e i = .error (.missingName k) := by
  rcases validateCaps_missing (mergedCaps e i) 0 h with ⟨k, hk⟩
  exact ⟨k, by rw [merge_eq_validate, hk]⟩

-- Names in the merged list are pairwise distinct.
theorem mergedCaps_nodup (e i : List CapRec) :
    ((mergedCaps e i).map Cap.name).Nodup := by
  unfold mergedCaps processExisting processNew
  rw [List.map_append]
  refine List.Nodup.append (capLoop_nodup _ e []) (capLoop_nodup _ i _) ?_
  intro x hx1 hx2
  rcases List.mem_map.mp hx1 with ⟨c1, hc1, rfl⟩
  rcases List.mem_map.mp hx2 with ⟨c2, hc2, hn⟩
  have h1 := capLoop_mem_seen _ e [] c1 hc1
  have h2 := capLoop_mem_not_seen _ i _ c2 hc2
  exact h2 (hn ▸ h1)

-- When every input record has a non-empty name, so does every merged entry.
theorem mergedCaps_names_nonempty (e i : List CapRec)
    (he : ∀ c ∈ e, c.name ≠ "") (hi : ∀ c ∈ i, c.name ≠ "") :
    ∀ c ∈ mergedCaps e i, c.name ≠ "" := by
  intro x hx
  unfold mergedCaps processExisting processNew at hx
  rcases List.mem_append.mp hx with h | h
  · rcases capLoop_mem_src _ e [] x h with ⟨c, hc, hp, rfl⟩
    simpa using he c hc
  · rcases capLoop_mem_src _ i _ x h with ⟨c, hc, _, rfl⟩
    simpa using hi c hc

-- A loop of n+1 iterations over an always-failing operation performs all
-- n+1 invocations, sleeps n times with doubling delays, and re-raises the
-- exception of the last invocation.
-- One failed non-final iteration: sleep the current delay, then continue
-- with the doubled delay.
theorem retryGo_step {ε α : Type} (op : Nat → Except ε α) (m attempt : Nat)
    (delay : Int) (e : ε) (he : op attempt = .error e) (hm : m ≠ 0) :
    retryGo op (m + 1) attempt delay =
      ((retryGo op m (attempt + 1) (delay * 2)).1,
        delay :: (retryGo op m (attempt + 1) (delay * 2)).2.1,
        (retryGo op m (attempt + 1) (delay * 2)).2.2 + 1) := by
  conv_lhs => rw [retryGo]
  simp only [he]
  rw [if_neg hm]

theorem retryGo_all_fail {ε α : Type} (op : Nat → Except ε α) (f : Nat → ε)
    (hop : ∀ k, op k = .error (f k)) :
    ∀ n attempt delay, retryGo op (n + 1) attempt delay =
      (.failure (f (attempt + n)), doublingList delay n, n + 1) := by
  intro n
  induction n with
  | zero =>
    intro attempt delay
    simp [retryGo, hop attempt, doublingList]
  | succ m ih =>
    intro attempt delay
    rw [retryGo_step op (m + 1) attempt delay (f attempt) (hop attempt)
      (Nat.succ_ne_zero m), ih (attempt + 1) (delay * 2)]
    have harith : attempt + 1 + m = attempt + (m + 1) := by omega
    simp [doublingList, harith]

-- A loop that fails for the first k attempts and succeeds at attempt k
-- (0-based, k within range) returns the success value after exactly k+1
-- invocations, having slept k times with doubling delays.
theorem retryGo_succeeds {ε α : Type} (op : Nat → Except ε α) :
    ∀ (k n attempt : Nat) (delay : Int) (a : α),
      (∀ j, j < k → ∃ e, op (attempt + j) = .error e) →
      op (attempt + k) = .ok a → k < n →
      retryGo op n attempt delay = (.success a, doublingList delay k, k + 1) := by
  intro k
  induction k with
  | zero =>
    intro n attempt delay a _ hok hn
    obtain ⟨m, rfl⟩ : ∃ m, n = m + 1 := ⟨n - 1, by omega⟩
    have hok2 : op attempt = .ok a := by simpa using hok
    simp [retryGo, hok2, doublingList]
  | succ kk ih =>
    intro n attempt delay a hfail hok hn
    obtain ⟨m, rfl⟩ : ∃ m, n = m + 1 := ⟨n - 1, by omega⟩
    rcases hfail 0 (Nat.succ_pos kk) with ⟨e, he⟩
    have he2 : op attempt = .error e := by simpa using he
    have hfail2 : ∀ j, j < kk → ∃ e2, op (attempt + 1 + j) = .error e2 := by
      intro j hj
      have h3 := hfail (j + 1) (by omega)
      rwa [show attempt + (j + 1) = attempt + 1 + j from by omega] at h3
    have hok2 : op (attempt + 1 + kk) = .ok a := by
      rwa [show attempt + (kk + 1) = attempt + 1 + kk from by omega] at hok
    simp only [retryGo, he2]
    rw [if_neg (by omega : ¬ m = 0),
      ih m (attempt + 1) (delay * 2) a hfail2 hok2 (by omega)]
    simp [doublingList]

/-- Claim C1: the reconciler walks `existing` copying `{name, description}`
(dropping other fields such as the state flag) for unseen non-empty names,
then appends incoming records with unseen names, silently dropping an
incoming record whose name was already seen; on the concrete input
`existing = [{a, d1}]`, `incoming = [{a, d2}, {b, d3}]` the result is
exactly `[{a, d1}, {b, d3}]`, and in every result all names are pairwise
distinct. -/
theorem claim_C1_merge_dedup :
    merge_capabilities_with_uniqueness
        [⟨"a", "d1", none⟩] [⟨"a", "d2", none⟩, ⟨"b", "d3", none⟩]
      = .ok [⟨"a", "d1"⟩, ⟨"b", "d3"⟩]
    ∧ (∀ e i : List CapRec, ((mergedCaps e i).map Cap.name).Nodup)
    ∧ (∀ (e i : List CapRec) (st st2 : CapRec → Option String),
        mergedCaps (e.map fun c => {c with state := st c})
            (i.map fun c => {c with state := st2 c})
          = mergedCaps e i) := by
  refine ⟨by decide, fun e i => mergedCaps_nodup e i, ?_⟩
  intro e i st st2
  unfold mergedCaps processExisting processNew
  rw [capLoop_state_map (fun c => c.name ≠ "") st (fun c => Iff.rfl) e,
    capLoop_state_map (fun _ => True) st2 (fun c => Iff.rfl) i]

/-- Claim C2, counterexample: the claim says an incoming record is appended
iff its name is non-empty and unseen, and that an empty-named incoming
record is never appended. On `existing = []`, `incoming = [{name: "",
description: "d"}]` the code appends the empty-named projection to the
merged list (the incoming walk checks only unseen-ness), and the reconciler
then raises the missing-name `ValueError` — whereas the reconciler the
spec describes would skip the record and return `[]`. -/
theorem claim_C2_counterexample :
    projCap ⟨"", "d", none⟩ ∈ mergedCaps [] [⟨"", "d", none⟩]
    ∧ merge_capabilities_with_uniqueness [] [⟨"", "d", none⟩]
        = .error (.missingName 0)
    ∧ specMerge [] [⟨"", "d", none⟩] = .ok [] := by
  refine ⟨by decide, by decide, by decide⟩

/-- Claim C2, amended: the incoming walk appends a record iff its name is
unseen, with no non-empty check; hence when some incoming record has an
empty name, an empty-named entry is appended to the merged list and the
reconciler raises a `ValueError` instead of returning, so no normally
returned list ever contains it. -/
theorem claim_C2_empty_incoming (e i : List CapRec)
    (h : ∃ c ∈ i, c.name = "") :
    (∃ x ∈ mergedCaps e i, x.name = "")
    ∧ ∃ err, merge_capabilities_with_uniqueness e i = .error err := by
  have hseen : "" ∉ (processExisting e []).1 := by
    intro hmem
    unfold processExisting at hmem
    rcases capLoop_seen_src _ e [] "" hmem with h1 | ⟨c0, _, hp0, hn0⟩
    · simp at h1
    · exact hp0 hn0
  have hmem2 : ∃ x ∈ (processNew i (processExisting e []).1).2, x.name = "" := by
    unfold processNew
    exact capLoop_empty_mem _ (fun _ => trivial) i _ hseen h
  have hmain : ∃ x ∈ mergedCaps e i, x.name = "" := by
    rcases hmem2 with ⟨x, hx, hxn⟩
    exact ⟨x, List.mem_append_right _ hx, hxn⟩
  refine ⟨hmain, ?_⟩
  rcases merge_error_missing e i hmain with ⟨k, hk⟩
  exact ⟨.missingName k, hk⟩

/-- Claim C2, witness: the amended theorem applied to `existing = []`,
`incoming = [{name: "", description: "d"}]`. -/
theorem claim_C2_witness :
    (∃ x ∈ mergedCaps [] [⟨"", "d", none⟩], x.name = "")
    ∧ ∃ err, merge_capabilities_with_uniqueness [] [⟨"", "d", none⟩]
        = .error err :=
  claim_C2_empty_incoming [] [⟨"", "d", none⟩]
    ⟨⟨"", "d", none⟩, by decide, rfl⟩

/-- Claim C3: the merged list is never longer than `len(existing) +
len(incoming)`, so the merge-count `ValueError` branch is dead code: the
reconciler never raises the count error for any input. -/
theorem claim_C3_count_check_dead (e i : List CapRec) :
    (mergedCaps e i).length ≤ e.length + i.length
    ∧ isCountError (merge_capabilities_with_uniqueness e i) = false := by
  refine ⟨mergedCaps_length_le e i, ?_⟩
  rw [merge_eq_validate]
  cases hv : validateCaps (mergedCaps e i) 0 with
  | none => rfl
  | some err =>
    rcases validateCaps_shape _ 0 err hv with ⟨k, rfl⟩
    rfl

/-- Claim C6, counterexample: `reconcile(existing, [])` is not the
projection of `existing` when `existing` contains a repeated name — the
duplicate is dropped. -/
theorem claim_C6_counterexample :
    merge_capabilities_with_uniqueness
        [⟨"a", "d1", none⟩, ⟨"a", "d2", none⟩] []
      ≠ .ok (([⟨"a", "d1", none⟩, ⟨"a", "d2", none⟩] : List CapRec).map projCap) := by
  decide

/-- Claim C6, amended: when every name in `existing` is non-empty and the
names are pairwise distinct, `reconcile(existing, [])` returns exactly the
`{name, description}` projection of `existing`. -/
theorem claim_C6_empty_incoming_id (e : List CapRec)
    (h1 : ∀ c ∈ e, c.name ≠ "") (h2 : (e.map CapRec.name).Nodup) :
    merge_capabilities_with_uniqueness e [] = .ok (e.map projCap) := by
  have hm : mergedCaps e [] = e.map projCap := by
    unfold mergedCaps processExisting processNew
    rw [capLoop_all_pass _ e [] h1 (by simp) h2]
    simp [capLoop]
  have hne : ∀ c ∈ mergedCaps e [], c.name ≠ "" := by
    rw [hm]
    intro c hc
    rcases List.mem_map.mp hc with ⟨c0, hc0, rfl⟩
    simpa using h1 c0 hc0
  rw [merge_ok_of_nonempty e [] hne, hm]

/-- Claim C6, witness: the amended theorem applied to `existing =
[{a, d1}, {b, d2}]`. -/
theorem claim_C6_witness :
    (∀ c ∈ ([⟨"a", "d1", none⟩, ⟨"b", "d2", none⟩] : List CapRec), c.name ≠ "")
    ∧ (([⟨"a", "d1", none⟩, ⟨"b", "d2", none⟩] : List CapRec).map CapRec.name).Nodup
    ∧ merge_capabilities_with_uniqueness [⟨"a", "d1", none⟩, ⟨"b", "d2", none⟩] []
        = .ok [⟨"a", "d1"⟩, ⟨"b", "d2"⟩] := by
  refine ⟨by decide, by decide, ?_⟩
  exact (claim_C6_empty_incoming_id [⟨"a", "d1", none⟩, ⟨"b", "d2", none⟩]
    (by decide) (by decide)).trans (by decide)

/-- Claim C7, counterexample: with all names non-empty, an existing entry
whose name does not occur in `incoming` can still be dropped — when an
earlier existing entry already used its name. On `existing = [{a, d1},
{a, d2}]`, `incoming = []` the entry `{a, d2}` is dropped. -/
theorem claim_C7_counterexample :
    (∀ c ∈ ([⟨"a", "d1", none⟩, ⟨"a", "d2", none⟩] : List CapRec), c.name ≠ "")
    ∧ (⟨"a", "d2", none⟩ : CapRec) ∈
        ([⟨"a", "d1", none⟩, ⟨"a", "d2", none⟩] : List CapRec)
    ∧ (∀ d ∈ ([] : List CapRec), d.name ≠ "a")
    ∧ projCap ⟨"a", "d2", none⟩ ∉
        mergedCaps [⟨"a", "d1", none⟩, ⟨"a", "d2", none⟩] [] := by
  refine ⟨by decide, by decide, by decide, by decide⟩

/-- Claim C7, amended: when all names in both inputs are non-empty and the
names in `existing` are pairwise distinct, the reconciler returns normally
and every existing entry whose name does not occur in `incoming` appears,
as its projection, in the result (in fact every existing entry does). -/
theorem claim_C7_existing_preserved (e i : List CapRec)
    (he : ∀ c ∈ e, c.name ≠ "") (hi : ∀ c ∈ i, c.name ≠ "")
    (hnd : (e.map CapRec.name).Nodup)
    (c : CapRec) (hc : c ∈ e) (_hno : ∀ d ∈ i, d.name ≠ c.name) :
    merge_capabilities_with_uniqueness e i = .ok (mergedCaps e i)
    ∧ projCap c ∈ mergedCaps e i := by
  constructor
  · exact merge_ok_of_nonempty e i (mergedCaps_names_nonempty e i he hi)
  · unfold mergedCaps processExisting processNew
    apply List.mem_append_left
    rw [capLoop_all_pass _ e [] he (by simp) hnd]
    exact List.mem_map_of_mem _ hc

/-- Claim C7, witness: the amended theorem applied to `existing = [{a, d1}]`,
`incoming = [{b, d2}]`, entry `{a, d1}`. -/
theorem claim_C7_witness :
    merge_capabilities_with_uniqueness [⟨"a", "d1", none⟩] [⟨"b", "d2", none⟩]
      = .ok (mergedCaps [⟨"a", "d1", none⟩] [⟨"b", "d2", none⟩])
    ∧ projCap ⟨"a", "d1", none⟩ ∈
        mergedCaps [⟨"a", "d1", none⟩] [⟨"b", "d2", none⟩] :=
  claim_C7_existing_preserved [⟨"a", "d1", none⟩] [⟨"b", "d2", none⟩]
    (by decide) (by decide) (by decide) ⟨"a", "d1", none⟩ (by decide) (by decide)

/-- Claim C8: whenever the reconciler returns normally, every returned entry
has a non-empty name; and whenever the merged list contains an empty or
missing name, it raises the missing-name `ValueError` instead of returning
the list. -/
theorem claim_C8_nonempty_names (e i : List CapRec) :
    (∀ l, merge_capabilities_with_uniqueness e i = .ok l →
      ∀ c ∈ l, c.name ≠ "")
    ∧ ((∃ c ∈ mergedCaps e i, c.name = "") →
      ∃ k, merge_capabilities_with_uniqueness e i = .error (.missingName k)) :=
  ⟨fun l h => (merge_ok_names e i l h).2, fun h => merge_error_missing e i h⟩

/-- Claim C8, witness: the theorem applied to the inputs `existing =
[{a, d}]`, `incoming = []` (normal return) and `existing = []`, `incoming =
[{name: "", description: "d"}]` (raise). -/
theorem claim_C8_witness :
    (∀ c ∈ ([⟨"a", "d"⟩] : List Cap), c.name ≠ "")
    ∧ ∃ k, merge_capabilities_with_uniqueness [] [⟨"", "d", none⟩]
        = .error (.missingName k) :=
  ⟨(claim_C8_nonempty_names [⟨"a", "d", none⟩] []).1 [⟨"a", "d"⟩] (by decide),
    (claim_C8_nonempty_names [] [⟨"", "d", none⟩]).2 ⟨⟨"", "d"⟩, by decide, rfl⟩⟩

/-- Claim C4: when the operation raises on every invocation and
`max_attempts >= 1`, `retry_operation` invokes the operation exactly
`max_attempts` times and propagates, unchanged, the exception raised by the
final invocation (index `max_attempts - 1`, 0-based), not one from an
earlier attempt. -/
theorem claim_C4_final_exception {ε α : Type} (op : Nat → Except ε α)
    (f : Nat → ε) (m d : Int)
    (hop : ∀ k, op k = .error (f k)) (hm : 1 ≤ m) :
    retry_operation op m d =
      (.failure (f (m.toNat - 1)), doublingList d (m.toNat - 1), m.toNat) := by
  unfold retry_operation
  obtain ⟨n, hn⟩ : ∃ n, m.toNat = n + 1 := ⟨m.toNat - 1, by omega⟩
  rw [hn, retryGo_all_fail op f hop n 0 d]
  simp

/-- Claim C4, witness: an operation failing with its attempt index and
`max_attempts = 2` propagates the exception of attempt index 1, after 2
invocations and one sleep. -/
theorem claim_C4_witness :
    (∀ k, (fun j => (Except.error j : Except Nat Nat)) k = Except.error (id k))
    ∧ (1 : Int) ≤ 2
    ∧ retry_operation (fun j => (Except.error j : Except Nat Nat)) 2 30
        = (.failure 1, [30], 2) :=
  ⟨fun k => rfl, by decide,
    (claim_C4_final_exception (fun j => (Except.error j : Except Nat Nat))
        id 2 30 (fun k => rfl) (by decide)).trans (by decide)⟩

/-- Claim C5: when the operation fails at attempts 0..k-1 and succeeds at
attempt k (0-based, within `max_attempts`), `retry_operation` returns the
success value, invokes the operation exactly k+1 times, and sleeps the
doubling delays; for failing twice then succeeding (k = 2) the sleeps are
exactly two, the second double the first. -/
theorem claim_C5_success_stops {ε α : Type} (op : Nat → Except ε α)
    (m d : Int) (k : Nat) (a : α)
    (hfail : ∀ j, j < k → ∃ e, op j = .error e) (hok : op k = .ok a)
    (hk : (k : Int) < m) :
    retry_operation op m d = (.success a, doublingList d k, k + 1)
    ∧ (k = 2 → (retry_operation op m d).2.1 = [d, d * 2]) := by
  have h1 : retry_operation op m d = (.success a, doublingList d k, k + 1) := by
    unfold retry_operation
    refine retryGo_succeeds op k m.toNat 0 d a ?_ ?_ (by omega)
    · intro j hj
      simpa using hfail j hj
    · simpa using hok
  refine ⟨h1, fun hk2 => ?_⟩
  subst hk2
  rw [h1]
  simp [doublingList]

/-- Claim C5, witness: an operation failing twice then returning 7, with
`max_attempts = 3` and initial delay 30, returns 7 after 3 invocations and
sleeps 30 then 60. -/
theorem claim_C5_witness :
    (∀ j, j < 2 → ∃ e : Unit,
      (fun j2 => if j2 < 2 then (Except.error () : Except Unit Nat) else .ok 7) j
        = .error e)
    ∧ (fun j2 => if j2 < 2 then (Except.error () : Except Unit Nat) else .ok 7) 2
        = .ok 7
    ∧ ((2 : Nat) : Int) < 3
    ∧ retry_operation
        (fun j2 => if j2 < 2 then (Except.error () : Except Unit Nat) else .ok 7)
        3 30 = (.success 7, [30, 60], 3) := by
  refine ⟨by decide, by decide, by decide, ?_⟩
  have h := claim_C5_success_stops
    (fun j2 => if j2 < 2 then (Except.error () : Except Unit Nat) else .ok 7)
    3 30 2 7 (by decide) (by decide) (by decide)
  exact h.1.trans (by decide)

/-- Claim C10: for `max_attempts <= 0` the loop body never executes:
`retry_operation` invokes the operation zero times, sleeps zero times,
raises nothing, and returns Python's implicit `None`. -/
theorem claim_C10_nonpositive {ε α : Type} (op : Nat → Except ε α)
    (m d : Int) (hm : m ≤ 0) :
    retry_operation op m d = (.returnsNone, [], 0) := by
  unfold retry_operation
  rw [show m.toNat = 0 from by omega]
  rfl

/-- Claim C10, witness: `max_attempts = -2` with an always-succeeding
operation still yields the implicit `None` with zero invocations. -/
theorem claim_C10_witness :
    ((-2 : Int) ≤ 0)
    ∧ retry_operation (fun _ => (Except.ok 0 : Except Unit Nat)) (-2) 30
        = (.returnsNone, [], 0) :=
  ⟨by decide, claim_C10_nonpositive (fun _ => (Except.ok 0 : Except Unit Nat))
    (-2) 30 (by decide)⟩

/-- Claim C9: when `version.txt` exists and its stripped text parses as the
integer n, `get_next_version` returns n and leaves the file containing the
decimal text of n + 1; when the file does not exist it returns 0 and writes
"1". -/
theorem claim_C9_read_increment_write (cs : List Char) (n : Int)
    (h : parseDecimal (stripChars cs) = some n) :
    get_next_version (some cs) = .ok (n, some (toString (n + 1)).data)
    ∧ get_next_version none = .ok (0, some ['1']) := by
  constructor
  · simp only [get_next_version, h]
  · decide

/-- Claim C9, witness: a file containing "5" yields 5 and is left containing
"6"; a missing file yields 0 and is left containing "1". -/
theorem claim_C9_witness :
    parseDecimal (stripChars ['5']) = some 5
    ∧ get_next_version (some ['5']) = .ok (5, some ['6'])
    ∧ get_next_version none = .ok (0, some ['1']) := by
  have h := claim_C9_read_increment_write ['5'] 5 (by decide)
  exact ⟨by decide, h.1.trans (by decide), h.2⟩

end SdkExample
